import Mathlib

/-!
Verification of the generative-utils library (map, random, poissonDisc,
createVoronoiDiagram) against its natural-language specification.

Real-number arithmetic of the JavaScript source is modelled exactly over `ℚ`.
The transcendental leaves of the code (`Math.sqrt`, `Math.atan2`, `Math.cos`,
`Math.sin`, the seeded PRNG stream) cannot be represented as computable
rational functions, so they are abstracted as parameters/oracles; each
statement below is universally quantified over those parameters, hence holds
in particular for the actual transcendental instances.
-/

namespace GenUtils

/-- Point2D value `{x, y}` of the data model, with exact rational coordinates. -/
structure Pt where
  x : ℚ
  y : ℚ
deriving DecidableEq, Repr

/-- Embedding of `map` from `src/map.js`:
`if (start1 === end1) return start2; return ((n - start1) / (end1 - start1)) * (end2 - start2) + start2`. -/
def map (n start1 end1 start2 end2 : ℚ) : ℚ :=
  if start1 = end1 then start2
  else (n - start1) / (end1 - start1) * (end2 - start2) + start2

/-- Embedding of the numeric mode of `random` from `src/random.js`.
The first PRNG draw `prng()` is the oracle argument `u`;
`val = prng() * (max - minOrArray) + minOrArray`, rounded when `toInteger`.
JavaScript `Math.round` is round-half-up, i.e. `⌊v + 1/2⌋`, which is exactly
Mathlib `round` on `ℚ`. -/
def random (u minv maxv : ℚ) (toInteger : Bool) : ℚ :=
  let val := u * (maxv - minv) + minv
  if toInteger then ((round val : ℤ) : ℚ) else val

/-- Embedding of the array mode of `random` from `src/random.js`:
`minOrArray[random(0, minOrArray.length - 1, true)]`.
The computed index is an integer-valued rational; JavaScript indexing with a
negative or out-of-range index yields `undefined`, modelled by `none`. -/
def randomArrayMode {α : Type} (u : ℚ) (l : List α) : Option α :=
  let idx := random u 0 ((l.length : ℚ) - 1) true
  if idx < 0 then none else l[(⌊idx⌋).toNat]?

/-! ## Voronoi diagram builder (`src/createVoronoiDiagram.js`)

The builder depends on three external collaborators (spec §6):
the planar Voronoi/Delaunay primitive (`d3-delaunay`), the polygon centroid
function (`d3`), and the point-to-segment distance (`src/distToSegment.js`).
The primitive is abstracted as a function `prim : List Pt → Tess` giving, for
the current seed positions (the clip rectangle is captured inside `prim`),
the per-site clipped cell polygon (`none` when unresolvable) and the per-site
neighbor enumeration — exactly the interface §6 requires.  `Math.atan2` and
`Math.sqrt` are transcendental, so the angle key `a` (standing for
`atan2(y - cy, x - cx)`) and the edge distance `d` (standing for
`distToSegment`) are parameters; all theorems hold for every choice of them. -/

/-- Tessellation primitive interface (spec §6): per-site clipped polygon
lookup and per-site neighbor indices, for one fixed set of site positions. -/
structure Tess where
  cellPolygon : ℕ → Option (List Pt)
  neighbors : ℕ → List ℕ

/-- Options of `createVoronoiDiagram` (defaults `relaxIterations = 8`,
`relaxationFactor = 0.5` in the source; width/height feed only the external
primitive and are captured inside `prim`). -/
structure VOpts where
  points : List Pt
  relaxIterations : ℕ
  relaxationFactor : ℚ

/-- Embedding of `sqr` from `src/distToSegment.js`. -/
def sqr (x : ℚ) : ℚ := x * x

/-- Embedding of `dist2` from `src/distToSegment.js`. -/
def dist2 (v w : Pt) : ℚ := sqr (v.x - w.x) + sqr (v.y - w.y)

/-- Embedding of `distToSegmentSquared` from `src/distToSegment.js`
(`distToSegment` itself is its `Math.sqrt`, handled abstractly). -/
def distToSegmentSquared (p v w : Pt) : ℚ :=
  let l2 := dist2 v w
  if l2 = 0 then dist2 p v
  else
    let t0 := ((p.x - v.x) * (w.x - v.x) + (p.y - v.y) * (w.y - v.y)) / l2
    let t := max 0 (min 1 t0)
    dist2 p ⟨v.x + t * (w.x - v.x), v.y + t * (w.y - v.y)⟩

/-- Modelled from the spec (§6 external collaborator, the `d3`
`polygonCentroid` used by `createVoronoiDiagram.js`): the standard
signed-area-weighted centroid of a polygon, folding over edges with the
running previous vertex starting at the last vertex.  In ℚ a degenerate
zero-area polygon divides by zero and yields 0 where JavaScript yields NaN;
no claim depends on that case. -/
def polygonCentroid (poly : List Pt) : Pt :=
  match poly.getLast? with
  | none => ⟨0, 0⟩
  | some b0 =>
    let acc := poly.foldl
      (fun (acc : ℚ × ℚ × ℚ × Pt) pt =>
        let b := acc.2.2.2
        let c := b.x * pt.y - pt.x * b.y
        (acc.1 + (b.x + pt.x) * c, acc.2.1 + (b.y + pt.y) * c, acc.2.2.1 + c, pt))
      (0, 0, 0, b0)
    ⟨acc.1 / (acc.2.2.1 * 3), acc.2.1 / (acc.2.2.1 * 3)⟩

/-- Stable insertion of a point into a list sorted by ascending key. -/
def insertByKey (key : Pt → ℚ) (p : Pt) : List Pt → List Pt
  | [] => [p]
  | q :: qs => if key p ≤ key q then p :: q :: qs else q :: insertByKey key p qs

/-- Embedding of `sortPointsByAngle` from `src/createVoronoiDiagram.js`:
sorts a copy of the vertex list by ascending angle around the centroid.  The
comparator key `a centroid p` stands for `Math.atan2(p.y - cy, p.x - cx)`. -/
def sortPointsByAngle (a : Pt → Pt → ℚ) (centroid : Pt) (points : List Pt) : List Pt :=
  points.foldr (insertByKey (a centroid)) []

/-- Accumulator update of the `getClosestEdgeToCentroid` loop:
`if (dist < closest) closest = dist`, with `none` playing the initial
`Infinity`. -/
def minStep (closest : Option ℚ) (dist : ℚ) : Option ℚ :=
  match closest with
  | none => some dist
  | some c => if dist < c then some dist else some c

/-- Embedding of `getClosestEdgeToCentroid` from `src/createVoronoiDiagram.js`:
`closest` starts at `Infinity` (modelled by `none`) and is lowered by every
edge `(pointsSorted[i], pointsSorted[(i+1) % numPoints])`; polygons with
fewer than 2 vertices return 0.  `d` stands for `distToSegment`. -/
def getClosestEdgeToCentroid (d : Pt → Pt → Pt → ℚ) (a : Pt → Pt → ℚ)
    (points : List Pt) : ℚ :=
  let centroid := polygonCentroid points
  let pointsSorted := sortPointsByAngle a centroid points
  let numPoints := pointsSorted.length
  if numPoints < 2 then 0
  else
    ((List.range numPoints).foldl
      (fun closest i =>
        minStep closest (d centroid (pointsSorted.getD i ⟨0, 0⟩)
          (pointsSorted.getD ((i + 1) % numPoints) ⟨0, 0⟩)))
      (none : Option ℚ)).getD 0

/-- Modelled from the spec (C4 wording): the consecutive pairs of vertices
in the given order, including the wraparound pair (last, first). -/
def consecPairsWrap : List Pt → List (Pt × Pt)
  | [] => []
  | x :: xs => (x :: xs).zip (xs ++ [x])

/-- Modelled from the spec (C4 wording): sort the polygon vertices by
ascending angle around the centroid, then take the minimum over all
consecutive edges (wraparound included) of the distance from the centroid to
the edge; a polygon with fewer than 2 vertices yields 0. -/
def innerCircleRadiusSpec (d : Pt → Pt → Pt → ℚ) (a : Pt → Pt → ℚ)
    (points : List Pt) : ℚ :=
  let centroid := polygonCentroid points
  let sorted := sortPointsByAngle a centroid points
  if sorted.length < 2 then 0
  else (((consecPairsWrap sorted).map (fun pq => d centroid pq.1 pq.2)).min?).getD 0

/-- Cell geometry before neighbor linking (the fields `formatCell` builds). -/
structure PreCell where
  points : List Pt
  innerCircleRadius : ℚ
  centroid : Pt
deriving DecidableEq, Repr

/-- Voronoi cell of the result.  In JavaScript `neighbors` holds references
to the other (mutable, cyclically linked) cell objects; here a neighbor is
represented by the geometric data of the referenced cell. -/
structure Cell where
  points : List Pt
  innerCircleRadius : ℚ
  centroid : Pt
  neighbors : List PreCell
deriving DecidableEq, Repr

/-- Embedding of `formatCell` from `src/createVoronoiDiagram.js`. -/
def formatCell (d : Pt → Pt → Pt → ℚ) (a : Pt → Pt → ℚ) (poly : List Pt) : PreCell :=
  { points := poly
    innerCircleRadius := getClosestEdgeToCentroid d a poly
    centroid := polygonCentroid poly }

/-- One Lloyd relaxation pass: the polygons are those of the tessellation of
the positions at the start of the pass (the source mutates
`delaunay.points` in place and calls `voronoi.update()` only after the
pass), and each resolvable seed moves a fraction `f` toward its centroid. -/
def relaxOnce (T : Tess) (f : ℚ) (ps : List Pt) : List Pt :=
  ps.mapIdx (fun i p =>
    match T.cellPolygon i with
    | none => p
    | some cell =>
      let c := polygonCentroid cell
      ⟨p.x + (c.x - p.x) * f, p.y + (c.y - p.y) * f⟩)

/-- The `relaxIterations` relaxation passes of `createVoronoiDiagram`. -/
def relaxLoop (prim : List Pt → Tess) (f : ℚ) : ℕ → List Pt → List Pt
  | 0, ps => ps
  | k + 1, ps => relaxLoop prim f k (relaxOnce (prim ps) f ps)

/-- Final (relaxed) seed positions, index-aligned with the input. -/
def finalPositions (prim : List Pt → Tess) (opts : VOpts) : List Pt :=
  relaxLoop prim opts.relaxationFactor opts.relaxIterations opts.points

/-- Tessellation of the final seed positions (the state of `voronoi` after
the last `update()`), from which cells are extracted. -/
def finalTess (prim : List Pt → Tess) (opts : VOpts) : Tess :=
  prim (finalPositions prim opts)

/-- First extraction pass of `createVoronoiDiagram`: for each seed index with
a resolvable polygon, the pair of the index and the formatted cell.  This is
simultaneously the `cells` accumulation order and the `pointIndexToCell`
map of the source. -/
def builtCells (prim : List Pt → Tess) (d : Pt → Pt → Pt → ℚ) (a : Pt → Pt → ℚ)
    (opts : VOpts) : List (ℕ × PreCell) :=
  (List.range (finalPositions prim opts).length).filterMap (fun i =>
    ((finalTess prim opts).cellPolygon i).map (fun poly => (i, formatCell d a poly)))

/-- Lookup in the index-to-cell association list (`pointIndexToCell.get`). -/
def findCell : List (ℕ × PreCell) → ℕ → Option PreCell
  | [], _ => none
  | (k, c) :: rest, j => if j = k then some c else findCell rest j

/-- Result of `createVoronoiDiagram`. -/
structure VResult where
  cells : List Cell
  points : List Pt
deriving DecidableEq, Repr

/-- Embedding of `createVoronoiDiagram` from `src/createVoronoiDiagram.js`:
relax, extract one cell per resolvable seed, then link neighbors by mapping
each neighbor index through the index-to-cell map and silently dropping the
unresolved ones. -/
def createVoronoiDiagram (prim : List Pt → Tess) (d : Pt → Pt → Pt → ℚ)
    (a : Pt → Pt → ℚ) (opts : VOpts) : VResult :=
  { cells := (builtCells prim d a opts).map (fun ic =>
      { points := ic.2.points
        innerCircleRadius := ic.2.innerCircleRadius
        centroid := ic.2.centroid
        neighbors := ((finalTess prim opts).neighbors ic.1).filterMap
          (findCell (builtCells prim d a opts)) })
    points := finalPositions prim opts }

/-- Angle-key stand-in used in concrete instantiations (the theorems hold
for every key, in particular for the real `Math.atan2` one). -/
def aZero : Pt → Pt → ℚ := fun _ _ => 0

/-- Trivial tessellation primitive: no site has a resolvable polygon. -/
def primEmpty : List Pt → Tess :=
  fun _ => { cellPolygon := fun _ => none, neighbors := fun _ => [] }

/-- Concrete options for the C5 witness. -/
def optsW5 : VOpts := { points := [⟨1, 2⟩], relaxIterations := 0, relaxationFactor := 1/2 }

/-! ### C7: the cell polygon is passed through unchanged

The tessellation primitive actually used by the source, `d3-delaunay`
`voronoi.cellPolygon(i)`, documents and returns a *closed* polygon
`[[x0,y0], ..., [x0,y0]]` whose last vertex repeats the first
(`Polygon.closePath` pushes a copy of the first point).  `formatCell` stores
that array as `points` without stripping the duplicate, so returned cells do
carry an explicit closing duplicate vertex.  `primClosed` below instantiates
the abstract primitive with that documented output shape. -/

/-- Closed square polygon in the shape `d3-delaunay` returns: the last
vertex repeats the first. -/
def closedSquare : List Pt := [⟨0, 0⟩, ⟨4, 0⟩, ⟨4, 4⟩, ⟨0, 4⟩, ⟨0, 0⟩]

/-- One-site primitive yielding the documented closed-polygon shape. -/
def primClosed : List Pt → Tess :=
  fun _ =>
    { cellPolygon := fun i => if i = 0 then some closedSquare else none
      neighbors := fun _ => [] }

/-- Concrete options for the C7 artifacts. -/
def optsC7 : VOpts := { points := [⟨2, 2⟩], relaxIterations := 0, relaxationFactor := 1/2 }

/-- Concrete cell for the C7 witness (the single cell of the
`primClosed` diagram). -/
def cellC7 : Cell :=
  ((createVoronoiDiagram primClosed distToSegmentSquared aZero optsC7).cells).getD 0
    ⟨[], 0, ⟨0, 0⟩, []⟩

/-- Two-site primitive with mutually neighboring resolvable cells, in the
closed-polygon shape the real primitive yields. -/
def primTwo : List Pt → Tess :=
  fun _ =>
    { cellPolygon := fun i =>
        if i = 0 then some [⟨0, 0⟩, ⟨2, 0⟩, ⟨2, 2⟩, ⟨0, 2⟩, ⟨0, 0⟩]
        else if i = 1 then some [⟨2, 0⟩, ⟨4, 0⟩, ⟨4, 2⟩, ⟨2, 2⟩, ⟨2, 0⟩]
        else none
      neighbors := fun i => if i = 0 then [1] else if i = 1 then [0] else [] }

/-- Concrete options for the C8 witness. -/
def optsC8 : VOpts :=
  { points := [⟨1, 1⟩, ⟨3, 1⟩], relaxIterations := 0, relaxationFactor := 1/2 }

/-- Concrete cell for the C8 witness (first cell of the `primTwo` diagram). -/
def cellC8 : Cell :=
  ((createVoronoiDiagram primTwo distToSegmentSquared aZero optsC8).cells).getD 0
    ⟨[], 0, ⟨0, 0⟩, []⟩

/-- Concrete cell for the C4 witness (second cell of the `primTwo`
diagram). -/
def cellC4 : Cell :=
  ((createVoronoiDiagram primTwo distToSegmentSquared aZero optsC8).cells).getD 1
    ⟨[], 0, ⟨0, 0⟩, []⟩

/-! ## Poisson disc sampler (`poissonDisc` in `src/polygon.js`)

The source fixes `cellSize = radius / Math.SQRT2`.  Since `radius / √2` is
irrational, the embedding carries `cellSize` as a context field; the valid
contexts (`GoodCtx`) constrain it by exactly the two inequalities that the
choice `radius / √2` satisfies and that Bridson's algorithm needs:
`2 * cellSize² ≤ radius²` (two points in one grid cell are closer than
`radius`) and `radius ≤ 2 * cellSize` (points within `radius` live within
the scanned 5×5 block of cells).

The PRNG draws are oracle inputs: `pick` stands for the `prng()` draw that
selects the active index, and `cand` stands for `randomPointAround` (the
annulus sample built from two further draws through `Math.cos`/`Math.sin`,
transcendental and hence abstracted).  All theorems hold for every oracle,
in particular for the real PRNG-driven one. -/

/-- Context of one `poissonDisc` call: the merged options plus the derived
`cellSize = radius / Math.SQRT2`. -/
structure PCtx where
  width : ℚ
  height : ℚ
  radius : ℚ
  cellSize : ℚ
  maxAttempts : ℕ
deriving DecidableEq, Repr

/-- Embedding of `gridWidth = Math.ceil(width / cellSize)`. -/
def gridWidth (c : PCtx) : ℤ := ⌈c.width / c.cellSize⌉

/-- Embedding of `gridHeight = Math.ceil(height / cellSize)`. -/
def gridHeight (c : PCtx) : ℤ := ⌈c.height / c.cellSize⌉

/-- Mutable state of the sampler: accepted `points`, the spatial `grid`
(cell index to point index, `-1` when empty, initialised by `fill(-1)`), and
the `active` list of point indices. -/
structure PState where
  points : List Pt
  grid : ℤ → ℤ
  active : List ℕ

/-- Embedding of the `gridIndex` helper:
`row * gridWidth + col` with `col = Math.floor(x / cellSize)`,
`row = Math.floor(y / cellSize)`. -/
def gridIndex (c : PCtx) (x y : ℚ) : ℤ :=
  ⌊y / c.cellSize⌋ * gridWidth c + ⌊x / c.cellSize⌋

/-- Integer interval `[lo, hi]` as a list (empty when `hi < lo`), modelling
`for (r = lo; r <= hi; r++)`. -/
def intRange (lo hi : ℤ) : List ℤ :=
  (List.range (hi + 1 - lo).toNat).map (fun k : ℕ => lo + (k : ℤ))

/-- Embedding of the `isValid` helper of `poissonDisc`: bounds check, then
the 5×5 block of grid cells around the candidate's cell (clamped to the
grid) must contain no accepted point with squared distance below
`radius²`.  The stale-index read `points[pointIdx]` is modelled with a
total lookup whose out-of-range branch accepts; the state invariant proves
that branch unreachable. -/
def isValid (c : PCtx) (s : PState) (x y : ℚ) : Bool :=
  if x < 0 ∨ c.width ≤ x ∨ y < 0 ∨ c.height ≤ y then false
  else
    let col := ⌊x / c.cellSize⌋
    let row := ⌊y / c.cellSize⌋
    let minCol := max 0 (col - 2)
    let maxCol := min (gridWidth c - 1) (col + 2)
    let minRow := max 0 (row - 2)
    let maxRow := min (gridHeight c - 1) (row + 2)
    (intRange minRow maxRow).all fun r =>
      (intRange minCol maxCol).all fun cc =>
        let pointIdx := s.grid (r * gridWidth c + cc)
        if pointIdx = -1 then true
        else
          match s.points[pointIdx.toNat]? with
          | none => true
          | some other =>
            decide (c.radius * c.radius ≤
              (other.x - x) * (other.x - x) + (other.y - y) * (other.y - y))

/-- Embedding of the `addPoint` helper: push the point, push its index on
the active list, and record the index in its grid cell. -/
def addPoint (c : PCtx) (s : PState) (x y : ℚ) : PState :=
  { points := s.points ++ [⟨x, y⟩]
    grid := fun j => if j = gridIndex c x y then (s.points.length : ℤ) else s.grid j
    active := s.active ++ [s.points.length] }

/-- Oracle inputs of one iteration of the main loop: the `prng()` draw that
picks the active index, and the `randomPointAround` candidate stream for the
spawn point (one candidate per attempt). -/
structure IterOracle where
  pick : ℚ
  cand : Pt → ℕ → Pt

/-- One iteration of the `while (active.length > 0)` loop: pick a random
active point, try up to `maxAttempts` candidates around it, accept the first
valid one, otherwise splice the index out of the active list. -/
def step (c : PCtx) (o : IterOracle) (s : PState) : PState :=
  let activeIdx := (⌊o.pick * s.active.length⌋).toNat
  let pointIdx := s.active.getD activeIdx 0
  let point := s.points.getD pointIdx ⟨0, 0⟩
  match (List.range c.maxAttempts).map (o.cand point) |>.find? (fun q => isValid c s q.x q.y) with
  | some q => addPoint c s q.x q.y
  | none => { s with active := s.active.eraseIdx activeIdx }

/-- Oracle for a whole run: the two draws behind the start point and the
per-iteration oracles. -/
structure POracle where
  u0x : ℚ
  u0y : ℚ
  iter : ℕ → IterOracle

/-- Fuel-indexed main loop; `none` means the fuel ran out with the active
list still non-empty. -/
def runP (c : PCtx) (O : POracle) : ℕ → ℕ → PState → Option PState
  | 0, _, s => if s.active = [] then some s else none
  | fuel + 1, n, s =>
    if s.active = [] then some s else runP c O fuel (n + 1) (step c (O.iter n) s)

/-- Initial state: empty structures (`grid` filled with `-1`), then
`addPoint(prng() * width, prng() * height)`. -/
def initState (c : PCtx) (O : POracle) : PState :=
  addPoint c { points := [], grid := fun _ => -1, active := [] }
    (O.u0x * c.width) (O.u0y * c.height)

/-- Embedding of `poissonDisc`: run the main loop from the seeded state and
return the accepted points. -/
def poissonDisc (c : PCtx) (O : POracle) (fuel : ℕ) : Option (List Pt) :=
  (runP c O fuel 0 (initState c O)).map PState.points

/-- Valid sampling contexts: positive dimensions and radius, at least one
attempt, and `cellSize` constrained exactly as `radius / √2` is:
`0 < cellSize`, `2·cellSize² ≤ radius²` and `radius ≤ 2·cellSize`. -/
structure GoodCtx (c : PCtx) : Prop where
  wpos : 0 < c.width
  hpos : 0 < c.height
  rpos : 0 < c.radius
  cspos : 0 < c.cellSize
  cs2 : 2 * c.cellSize ^ 2 ≤ c.radius ^ 2
  r2cs : c.radius ≤ 2 * c.cellSize
  mapos : 1 ≤ c.maxAttempts

/-- Squared Euclidean distance between two points. -/
def distSq (p q : Pt) : ℚ := (p.x - q.x) * (p.x - q.x) + (p.y - q.y) * (p.y - q.y)

/-! ### The state invariant of the sampler -/

/-- Invariant of the sampler state: accepted points are in bounds, the grid
maps each accepted point's cell back to its index (hence at most one point
per cell), every non-empty grid cell holds the index of a point lying in
that very cell, and all pairs of distinct accepted points are at squared
distance at least `radius²`. -/
structure Inv (c : PCtx) (s : PState) : Prop where
  bounds : ∀ p ∈ s.points, 0 ≤ p.x ∧ p.x < c.width ∧ 0 ≤ p.y ∧ p.y < c.height
  gridBack : ∀ (i : ℕ) (hi : i < s.points.length),
    s.grid (gridIndex c (s.points[i].x) (s.points[i].y)) = (i : ℤ)
  gridDom : ∀ j : ℤ, s.grid j = -1 ∨
    ∃ (i : ℕ) (hi : i < s.points.length),
      s.grid j = (i : ℤ) ∧ gridIndex c (s.points[i].x) (s.points[i].y) = j
  pairwise : ∀ (i j : ℕ) (hi : i < s.points.length) (hj : j < s.points.length),
    i ≠ j → c.radius * c.radius ≤ distSq s.points[i] s.points[j]

/-! ### C1 witness -/

/-- Concrete valid context for the C1/C6 witnesses (`cellSize = 7/10` plays
`1/√2 ≈ 0.7071`, satisfying both `GoodCtx` cell-size constraints). -/
def ctxW : PCtx := { width := 3, height := 1, radius := 1, cellSize := 7/10, maxAttempts := 1 }

/-- Concrete oracle: the seed point lands at the origin and every candidate
is `(2, 0)` (accepted once, then rejected forever, emptying the active
list). -/
def OW : POracle :=
  { u0x := 0, u0y := 0, iter := fun _ => { pick := 0, cand := fun _ _ => ⟨2, 0⟩ } }

/-- Points returned by the concrete run `poissonDisc ctxW OW 5`. -/
def ptsW : List Pt := [⟨0, 0⟩, ⟨2, 0⟩]

/-! ### C6: bounded termination of the main loop -/

/-- Number of cells of the spatial grid; each accepted point occupies one
cell exclusively, so it bounds the number of accepted points. -/
def capacity (c : PCtx) : ℕ := (gridWidth c * gridHeight c).toNat

/-- Termination measure: each loop iteration lowers it; acceptance trades a
free grid cell (worth 2) for one new active entry, removal shortens the
active list. -/
def pMeasure (c : PCtx) (s : PState) : ℕ :=
  2 * (capacity c - s.points.length) + s.active.length

/-! ### C2: no fail-fast argument validation exists

`poissonDisc` validates nothing.  With `radius < 0` the derived `cellSize`
is negative, `gridHeight = ⌈height/cellSize⌉ ≤ 0`, the clamped 5×5 scan is
empty, and `isValid` degenerates to the bounds check alone: no distance is
ever consulted, every in-bounds candidate is accepted, and the call either
returns normally with accepted points or keeps accepting forever — it never
raises an invalid-argument error.  (With `radius = 0` the JavaScript code
divides by zero and dies constructing `new Array(Infinity)`, a `RangeError`,
not an explicit invalid-argument check; float division by zero has no exact
rational counterpart, so the refutation below uses a negative radius.) -/

/-- Degenerate context: `radius = -1`, `cellSize = radius/√2` represented by
the negative rational `-71/100`; no validation rejects it. -/
def ctxNeg : PCtx :=
  { width := 1, height := 1, radius := -1, cellSize := -(71/100), maxAttempts := 1 }

/-- Oracle whose candidates fall out of bounds: the active list empties and
the run returns normally. -/
def ONeg : POracle :=
  { u0x := 0, u0y := 0, iter := fun _ => { pick := 0, cand := fun _ _ => ⟨5, 5⟩ } }

/-- Oracle whose candidates are in bounds: every iteration accepts a point
(even a duplicate of an existing one) and the loop never ends. -/
def ONeg2 : POracle :=
  { u0x := 0, u0y := 0, iter := fun _ => { pick := 0, cand := fun _ _ => ⟨1/2, 1/2⟩ } }

/-- C9: `map` with a zero-width input range (`start1 == end1`) returns `start2`
exactly instead of dividing by zero; for `start1 ≠ end1` the divisor
`end1 - start1` is nonzero and `map` is the usual affine rescaling. -/
theorem map_zero_width_range (n start1 end1 start2 end2 : ℚ) :
    (start1 = end1 → map n start1 end1 start2 end2 = start2) ∧
    (start1 ≠ end1 → end1 - start1 ≠ 0 ∧
      map n start1 end1 start2 end2 =
        (n - start1) / (end1 - start1) * (end2 - start2) + start2) := by
  constructor
  · intro h
    simp [map, h]
  · intro h
    refine ⟨fun hz => h (by linarith [sub_eq_zero.mp hz]), ?_⟩
    simp [map, h]

/-- Witness for C9 at concrete inputs: `map 5 3 3 7 9 = 7` (zero-width range)
and `map 50 0 100 0 1 = 1/2` (the documented example). -/
theorem map_zero_width_range_witness :
    map 5 3 3 7 9 = 7 ∧ map 50 0 100 0 1 = 1/2 := by
  constructor
  · exact (map_zero_width_range 5 3 3 7 9).1 rfl
  · have h := ((map_zero_width_range 50 0 100 0 1).2 (by norm_num)).2
    rw [h]; norm_num

/-- C10: for a non-empty array, the array mode of `random` computes an index
`random(0, a.length - 1, true)` lying within `[0, a.length - 1]`, so the
indexing never yields `undefined`: the result is an element of the array.
Hypotheses `0 ≤ u < 1` state that the PRNG draw lies in `[0, 1)`. -/
theorem random_array_mode_mem {α : Type} (u : ℚ) (l : List α)
    (hne : l ≠ []) (h0 : 0 ≤ u) (h1 : u < 1) :
    0 ≤ round (u * ((l.length : ℚ) - 1)) ∧
    round (u * ((l.length : ℚ) - 1)) ≤ (l.length : ℤ) - 1 ∧
    ∃ x ∈ l, randomArrayMode u l = some x := by
  have hlen : 1 ≤ l.length := List.length_pos.mpr hne
  have hlenQ : (1 : ℚ) ≤ (l.length : ℚ) := by exact_mod_cast hlen
  set v : ℚ := u * ((l.length : ℚ) - 1) with hv
  have hv0 : 0 ≤ v := mul_nonneg h0 (by linarith)
  have hvle : v ≤ (l.length : ℚ) - 1 := by
    calc v ≤ 1 * ((l.length : ℚ) - 1) :=
          mul_le_mul_of_nonneg_right h1.le (by linarith)
      _ = (l.length : ℚ) - 1 := one_mul _
  have hr0 : 0 ≤ round v := by
    rw [round_eq]
    exact Int.floor_nonneg.mpr (by linarith)
  have hrle : round v ≤ (l.length : ℤ) - 1 := by
    rw [round_eq]
    have : v + 1/2 < (l.length : ℚ) := by linarith
    have hlt : ⌊v + 1/2⌋ < (l.length : ℤ) := by
      apply Int.floor_lt.mpr
      exact_mod_cast this
    omega
  refine ⟨hr0, hrle, ?_⟩
  have hidx : random u 0 ((l.length : ℚ) - 1) true = ((round v : ℤ) : ℚ) := by
    simp [random, hv]
  have hnonneg : ¬ (((round v : ℤ) : ℚ) < 0) := by
    push_neg
    exact_mod_cast hr0
  have hfl : ⌊((round v : ℤ) : ℚ)⌋ = round v := Int.floor_intCast _
  have hbound : (round v).toNat < l.length := by omega
  refine ⟨l[(round v).toNat], List.getElem_mem hbound, ?_⟩
  rw [randomArrayMode]
  simp only [hidx, hnonneg, if_false, hfl]
  exact List.getElem?_eq_getElem hbound

/-- Witness for C10 on `[10, 20, 30]` with PRNG draw `9/10`: the index is
`round(9/10 * 2) = 2`, within `[0, 2]`, and an element is returned. -/
theorem random_array_mode_mem_witness :
    0 ≤ round ((9/10 : ℚ) * (((3 : ℕ) : ℚ) - 1)) ∧
    round ((9/10 : ℚ) * (((3 : ℕ) : ℚ) - 1)) ≤ ((3 : ℕ) : ℤ) - 1 ∧
    ∃ x ∈ ([10, 20, 30] : List ℤ), randomArrayMode (9/10 : ℚ) ([10, 20, 30] : List ℤ) = some x := by
  have h := random_array_mode_mem (9/10 : ℚ) ([10, 20, 30] : List ℤ)
    (by decide) (by norm_num) (by norm_num)
  simpa using h

/-! ### Voronoi invariants and functional-correctness theorems -/

theorem length_relaxOnce (T : Tess) (f : ℚ) (ps : List Pt) :
    (relaxOnce T f ps).length = ps.length := by
  simp [relaxOnce]

theorem length_relaxLoop (prim : List Pt → Tess) (f : ℚ) :
    ∀ (k : ℕ) (ps : List Pt), (relaxLoop prim f k ps).length = ps.length
  | 0, ps => rfl
  | k + 1, ps => by
    rw [relaxLoop, length_relaxLoop prim f k, length_relaxOnce]

theorem length_finalPositions (prim : List Pt → Tess) (opts : VOpts) :
    (finalPositions prim opts).length = opts.points.length :=
  length_relaxLoop prim opts.relaxationFactor opts.relaxIterations opts.points

/-- C3: for every input (any point array, any number of relaxation
iterations) the returned `points` has exactly one entry per original seed,
and `cells` never has more entries than `points` (seeds whose polygon is
unresolvable produce no cell but still occupy a `points` slot). -/
theorem voronoi_point_count (prim : List Pt → Tess) (d : Pt → Pt → Pt → ℚ)
    (a : Pt → Pt → ℚ) (opts : VOpts) :
    (createVoronoiDiagram prim d a opts).points.length = opts.points.length ∧
    (createVoronoiDiagram prim d a opts).cells.length ≤
      (createVoronoiDiagram prim d a opts).points.length := by
  constructor
  · exact length_finalPositions prim opts
  · show ((builtCells prim d a opts).map _).length ≤ (finalPositions prim opts).length
    rw [List.length_map]
    calc (builtCells prim d a opts).length
        ≤ (List.range (finalPositions prim opts).length).length :=
          List.length_filterMap_le _ _
      _ = (finalPositions prim opts).length := List.length_range _

/-- C5: with `relaxIterations = 0` the relaxation loop is skipped entirely
and the returned seed positions are identical to the original input, in the
same order. -/
theorem voronoi_zero_relaxation (prim : List Pt → Tess) (d : Pt → Pt → Pt → ℚ)
    (a : Pt → Pt → ℚ) (opts : VOpts) (h : opts.relaxIterations = 0) :
    (createVoronoiDiagram prim d a opts).points = opts.points := by
  show finalPositions prim opts = opts.points
  rw [finalPositions, h, relaxLoop]

/-- Witness for C5: a concrete one-seed diagram with `relaxIterations = 0`
returns the input seed unchanged. -/
theorem voronoi_zero_relaxation_witness :
    (createVoronoiDiagram primEmpty distToSegmentSquared aZero optsW5).points =
      optsW5.points :=
  voronoi_zero_relaxation primEmpty distToSegmentSquared aZero optsW5 rfl

/-- Counterexample for C7: with the primitive returning the documented
closed polygon, the single returned cell has 5 points whose first point is
repeated as the last point, contradicting the claim that no explicit closing
duplicate is present. -/
theorem voronoi_closing_duplicate_counterexample :
    ((createVoronoiDiagram primClosed distToSegmentSquared aZero optsC7).cells.map
        (fun c => (c.points.head?, c.points.getLast?, c.points.length))) =
      [(some ⟨0, 0⟩, some ⟨0, 0⟩, 5)] := by
  decide

/-- C7 (amended): each returned cell's `points` is exactly the polygon
yielded by the tessellation primitive for some seed index — nothing is
stripped or appended — so the boundary carries an explicit closing duplicate
vertex precisely when the primitive's polygon does (which the actual
`d3-delaunay` primitive always does). -/
theorem voronoi_cell_points_passthrough (prim : List Pt → Tess)
    (d : Pt → Pt → Pt → ℚ) (a : Pt → Pt → ℚ) (opts : VOpts) (cell : Cell)
    (hc : cell ∈ (createVoronoiDiagram prim d a opts).cells) :
    ∃ i, (finalTess prim opts).cellPolygon i = some cell.points := by
  obtain ⟨ic, hic, hcell⟩ := List.mem_map.mp hc
  obtain ⟨i, _, hmap⟩ := List.mem_filterMap.mp hic
  obtain ⟨poly, hpoly, hip⟩ := Option.map_eq_some'.mp hmap
  refine ⟨i, ?_⟩
  rw [hpoly, ← hcell, ← hip]
  simp [formatCell]

/-- Witness for the amended C7 at a concrete diagram. -/
theorem voronoi_cell_points_passthrough_witness :
    ∃ i, (finalTess primClosed optsC7).cellPolygon i = some cellC7.points := by
  have hlen : 0 < (createVoronoiDiagram primClosed distToSegmentSquared aZero optsC7).cells.length := by
    decide
  have hmem : cellC7 ∈ (createVoronoiDiagram primClosed distToSegmentSquared aZero optsC7).cells := by
    have h := List.getD_eq_getElem
      (createVoronoiDiagram primClosed distToSegmentSquared aZero optsC7).cells
      ⟨[], 0, ⟨0, 0⟩, []⟩ hlen
    rw [cellC7, h]
    exact List.getElem_mem hlen
  exact voronoi_cell_points_passthrough primClosed distToSegmentSquared aZero optsC7 cellC7
    hmem

/-! ### C8: neighbor lists hold only live cells, in primitive order -/

theorem findCell_mem (cs : List (ℕ × PreCell)) (j : ℕ) (c : PreCell)
    (h : findCell cs j = some c) : (j, c) ∈ cs := by
  induction cs with
  | nil => simp [findCell] at h
  | cons hd tl ih =>
    obtain ⟨k, c'⟩ := hd
    rw [findCell] at h
    by_cases hk : j = k
    · rw [if_pos hk] at h
      injection h with h'
      subst hk
      subst h'
      exact List.mem_cons_self _ _
    · rw [if_neg hk] at h
      exact List.mem_cons_of_mem _ (ih h)

/-- C8: every neighbor entry of a returned cell is one of the cells that
were actually built (no dangling references), and the neighbor list is
exactly the primitive's neighbor enumeration for the cell's seed index with
unresolved indices silently filtered out, order preserved. -/
theorem voronoi_neighbors_live (prim : List Pt → Tess) (d : Pt → Pt → Pt → ℚ)
    (a : Pt → Pt → ℚ) (opts : VOpts) (cell : Cell)
    (hc : cell ∈ (createVoronoiDiagram prim d a opts).cells) :
    (∃ i, (finalTess prim opts).cellPolygon i ≠ none ∧
      cell.neighbors = ((finalTess prim opts).neighbors i).filterMap
        (findCell (builtCells prim d a opts))) ∧
    ∀ nb ∈ cell.neighbors,
      ∃ cell' ∈ (createVoronoiDiagram prim d a opts).cells,
        cell'.points = nb.points ∧ cell'.innerCircleRadius = nb.innerCircleRadius ∧
        cell'.centroid = nb.centroid := by
  obtain ⟨ic, hic, hcell⟩ := List.mem_map.mp hc
  obtain ⟨i, _, hmap⟩ := List.mem_filterMap.mp hic
  obtain ⟨poly, hpoly, hip⟩ := Option.map_eq_some'.mp hmap
  have hi : ic.1 = i := by rw [← hip]
  constructor
  · refine ⟨i, by rw [hpoly]; simp, ?_⟩
    rw [← hcell, ← hi]
  · intro nb hnb
    rw [← hcell] at hnb
    obtain ⟨j, _, hfind⟩ := List.mem_filterMap.mp hnb
    have hjmem : (j, nb) ∈ builtCells prim d a opts := findCell_mem _ _ _ hfind
    exact ⟨{ points := nb.points, innerCircleRadius := nb.innerCircleRadius,
             centroid := nb.centroid,
             neighbors := ((finalTess prim opts).neighbors j).filterMap
               (findCell (builtCells prim d a opts)) },
           List.mem_map.mpr ⟨(j, nb), hjmem, rfl⟩, rfl, rfl, rfl⟩

/-- Witness for C8 at a concrete two-cell diagram with a live neighbor. -/
theorem voronoi_neighbors_live_witness :
    (∃ i, (finalTess primTwo optsC8).cellPolygon i ≠ none ∧
      cellC8.neighbors = ((finalTess primTwo optsC8).neighbors i).filterMap
        (findCell (builtCells primTwo distToSegmentSquared aZero optsC8))) ∧
    ∀ nb ∈ cellC8.neighbors,
      ∃ cell' ∈ (createVoronoiDiagram primTwo distToSegmentSquared aZero optsC8).cells,
        cell'.points = nb.points ∧ cell'.innerCircleRadius = nb.innerCircleRadius ∧
        cell'.centroid = nb.centroid := by
  have hlen : 0 < (createVoronoiDiagram primTwo distToSegmentSquared aZero optsC8).cells.length := by
    decide
  have hmem : cellC8 ∈ (createVoronoiDiagram primTwo distToSegmentSquared aZero optsC8).cells := by
    have h := List.getD_eq_getElem
      (createVoronoiDiagram primTwo distToSegmentSquared aZero optsC8).cells
      ⟨[], 0, ⟨0, 0⟩, []⟩ hlen
    rw [cellC8, h]
    exact List.getElem_mem hlen
  exact voronoi_neighbors_live primTwo distToSegmentSquared aZero optsC8 cellC8 hmem

/-! ### C4: innerCircleRadius is the minimum edge distance from the centroid -/

theorem length_insertByKey (key : Pt → ℚ) (p : Pt) :
    ∀ l : List Pt, (insertByKey key p l).length = l.length + 1
  | [] => rfl
  | q :: qs => by
    rw [insertByKey]
    split
    · simp
    · simp [length_insertByKey key p qs]

theorem length_sortPointsByAngle (a : Pt → Pt → ℚ) (c : Pt) (l : List Pt) :
    (sortPointsByAngle a c l).length = l.length := by
  rw [sortPointsByAngle]
  induction l with
  | nil => rfl
  | cons p ps ih =>
    rw [List.foldr_cons, length_insertByKey, ih]
    rfl

theorem foldlMin_some (xs : List ℚ) :
    ∀ x : ℚ, xs.foldl minStep (some x) = some (xs.foldl min x) := by
  induction xs with
  | nil => intro x; rfl
  | cons b bs ih =>
    intro x
    rw [List.foldl_cons, List.foldl_cons]
    have hs : minStep (some x) b = some (min x b) := by
      show (if b < x then some b else some x) = some (min x b)
      split_ifs with h
      · rw [min_eq_right h.le]
      · rw [min_eq_left (not_lt.mp h)]
    rw [hs, ih]

theorem foldlMin_eq_min (l : List ℚ) : l.foldl minStep none = l.min? := by
  cases l with
  | nil => rfl
  | cons x xs =>
    rw [List.foldl_cons]
    show xs.foldl minStep (some x) = (x :: xs).min?
    rw [foldlMin_some]
    rfl

theorem consecPairsWrap_eq_map (l : List Pt) :
    consecPairsWrap l = (List.range l.length).map
      (fun i => (l.getD i ⟨0, 0⟩, l.getD ((i + 1) % l.length) ⟨0, 0⟩)) := by
  cases l with
  | nil => rfl
  | cons x xs =>
    apply List.ext_getElem
    · simp [consecPairsWrap]
    · intro i h1 h2
      have hn : i < (x :: xs).length := by
        simpa using h2
      simp only [List.getElem_map, List.getElem_range]
      have hcw : consecPairsWrap (x :: xs) = (x :: xs).zip (xs ++ [x]) := rfl
      simp only [hcw]
      rw [List.getElem_zip]
      refine Prod.ext ?_ ?_
      · exact (List.getD_eq_getElem _ _ hn).symm
      · rcases Nat.lt_or_ge i xs.length with hlt | hge
        · have hmod : (i + 1) % (x :: xs).length = i + 1 := by
            apply Nat.mod_eq_of_lt
            simp
            omega
          have hsucc : i + 1 < (x :: xs).length := by
            simp
            omega
          have hgd : (x :: xs).getD ((i + 1) % (x :: xs).length) ⟨0, 0⟩ = xs[i] := by
            rw [hmod, List.getD_eq_getElem _ _ hsucc, List.getElem_cons_succ]
          rw [hgd]
          simp [List.getElem_append_left hlt]
        · have hik : i = xs.length := by
            simp at hn
            omega
          have hmod : (i + 1) % (x :: xs).length = 0 := by
            simp [hik]
          have hgd : (x :: xs).getD ((i + 1) % (x :: xs).length) ⟨0, 0⟩ = x := by
            rw [hmod]
            rfl
          rw [hgd]
          subst hik
          simp [List.getElem_concat_length]

/-- Refinement theorem behind C4: the source fold of
`getClosestEdgeToCentroid` computes exactly the specified quantity
`innerCircleRadiusSpec` (minimum, over consecutive angle-sorted vertex pairs
including the wraparound pair, of the centroid-to-edge distance; 0 for fewer
than 2 vertices), for every edge-distance function and every angle key. -/
theorem getClosestEdgeToCentroid_eq_spec (d : Pt → Pt → Pt → ℚ) (a : Pt → Pt → ℚ)
    (points : List Pt) :
    getClosestEdgeToCentroid d a points = innerCircleRadiusSpec d a points := by
  simp only [getClosestEdgeToCentroid, innerCircleRadiusSpec]
  set c := polygonCentroid points with hc
  set s := sortPointsByAngle a c points with hs
  by_cases h2 : s.length < 2
  · rw [if_pos h2, if_pos h2]
  · rw [if_neg h2, if_neg h2]
    congr 1
    have hfold : (List.range s.length).foldl
        (fun closest i => minStep closest
          (d c (s.getD i ⟨0, 0⟩) (s.getD ((i + 1) % s.length) ⟨0, 0⟩)))
        (none : Option ℚ)
        = ((List.range s.length).map
            (fun i => d c (s.getD i ⟨0, 0⟩) (s.getD ((i + 1) % s.length) ⟨0, 0⟩))).foldl
            minStep none := by
      rw [List.foldl_map]
    rw [hfold, foldlMin_eq_min]
    congr 1
    rw [consecPairsWrap_eq_map, List.map_map]
    rfl

/-- C4: for every cell built by `createVoronoiDiagram`, `innerCircleRadius`
equals the minimum over consecutive angle-sorted vertex pairs (wraparound
pair included) of the point-to-segment distance from the centroid to that
edge, and a degenerate polygon with fewer than 2 vertices yields 0. -/
theorem voronoi_innerCircleRadius_spec (prim : List Pt → Tess)
    (d : Pt → Pt → Pt → ℚ) (a : Pt → Pt → ℚ) (opts : VOpts) (cell : Cell)
    (hc : cell ∈ (createVoronoiDiagram prim d a opts).cells) :
    cell.innerCircleRadius = innerCircleRadiusSpec d a cell.points ∧
    (cell.points.length < 2 → cell.innerCircleRadius = 0) := by
  obtain ⟨ic, hic, hcell⟩ := List.mem_map.mp hc
  obtain ⟨i, _, hmap⟩ := List.mem_filterMap.mp hic
  obtain ⟨poly, hpoly, hip⟩ := Option.map_eq_some'.mp hmap
  have hpts : cell.points = poly := by
    rw [← hcell, ← hip]
    simp [formatCell]
  have hicr : cell.innerCircleRadius = getClosestEdgeToCentroid d a poly := by
    rw [← hcell, ← hip]
    simp [formatCell]
  constructor
  · rw [hicr, hpts, getClosestEdgeToCentroid_eq_spec]
  · intro hdeg
    rw [hpts] at hdeg
    have hslen : (sortPointsByAngle a (polygonCentroid poly) poly).length < 2 := by
      rw [length_sortPointsByAngle]
      exact hdeg
    rw [hicr]
    simp only [getClosestEdgeToCentroid]
    rw [if_pos hslen]

/-- Witness for C4 at a concrete cell of a concrete diagram. -/
theorem voronoi_innerCircleRadius_spec_witness :
    cellC4.innerCircleRadius = innerCircleRadiusSpec distToSegmentSquared aZero cellC4.points ∧
    (cellC4.points.length < 2 → cellC4.innerCircleRadius = 0) := by
  have hlen : 1 < (createVoronoiDiagram primTwo distToSegmentSquared aZero optsC8).cells.length := by
    decide
  have hmem : cellC4 ∈ (createVoronoiDiagram primTwo distToSegmentSquared aZero optsC8).cells := by
    have h := List.getD_eq_getElem
      (createVoronoiDiagram primTwo distToSegmentSquared aZero optsC8).cells
      ⟨[], 0, ⟨0, 0⟩, []⟩ hlen
    rw [cellC4, h]
    exact List.getElem_mem hlen
  exact voronoi_innerCircleRadius_spec primTwo distToSegmentSquared aZero optsC8 cellC4 hmem

/-! ### Grid-cell arithmetic for the Poisson invariant -/

theorem abs_sub_lt_of_floor_div_eq {cs a b : ℚ} (hcs : 0 < cs)
    (h : ⌊a / cs⌋ = ⌊b / cs⌋) : |a - b| < cs := by
  have hfa : (⌊a / cs⌋ : ℚ) ≤ a / cs := Int.floor_le _
  have hfb : (⌊b / cs⌋ : ℚ) ≤ b / cs := Int.floor_le _
  have hla : a / cs < ⌊a / cs⌋ + 1 := Int.lt_floor_add_one _
  have hlb : b / cs < ⌊b / cs⌋ + 1 := Int.lt_floor_add_one _
  rw [h] at hfa hla
  have ha1 : (⌊b / cs⌋ : ℚ) * cs ≤ a := (le_div_iff hcs).mp hfa
  have ha2 : a < ((⌊b / cs⌋ : ℚ) + 1) * cs := (div_lt_iff hcs).mp hla
  have hb1 : (⌊b / cs⌋ : ℚ) * cs ≤ b := (le_div_iff hcs).mp hfb
  have hb2 : b < ((⌊b / cs⌋ : ℚ) + 1) * cs := (div_lt_iff hcs).mp hlb
  rw [abs_lt]
  constructor <;> nlinarith

theorem floor_div_le_of_sub_lt {cs a b : ℚ} (hcs : 0 < cs) (h : a - b < 2 * cs) :
    ⌊a / cs⌋ ≤ ⌊b / cs⌋ + 2 := by
  have hlb : b < ((⌊b / cs⌋ : ℚ) + 1) * cs := (div_lt_iff hcs).mp (Int.lt_floor_add_one _)
  have hq : a / cs < ((⌊b / cs⌋ + 3 : ℤ) : ℚ) := by
    rw [div_lt_iff hcs]
    push_cast
    nlinarith
  have h2 : ⌊a / cs⌋ < ⌊b / cs⌋ + 3 := Int.floor_lt.mpr hq
  omega

theorem floor_div_close {cs a b : ℚ} (hcs : 0 < cs) (h : |a - b| < 2 * cs) :
    ⌊b / cs⌋ - 2 ≤ ⌊a / cs⌋ ∧ ⌊a / cs⌋ ≤ ⌊b / cs⌋ + 2 := by
  rw [abs_lt] at h
  constructor
  · have := floor_div_le_of_sub_lt hcs (by linarith : b - a < 2 * cs)
    omega
  · exact floor_div_le_of_sub_lt hcs h.2

theorem floor_div_bounds {cs w x : ℚ} (hcs : 0 < cs) (h0 : 0 ≤ x) (hw : x < w) :
    0 ≤ ⌊x / cs⌋ ∧ ⌊x / cs⌋ < ⌈w / cs⌉ := by
  refine ⟨Int.floor_nonneg.mpr (div_nonneg h0 hcs.le), ?_⟩
  apply Int.floor_lt.mpr
  calc x / cs < w / cs := (div_lt_div_right hcs).mpr hw
    _ ≤ (⌈w / cs⌉ : ℚ) := Int.le_ceil _

theorem rowcol_inj {W row col row' col' : ℤ} (hW : 0 < W)
    (hc0 : 0 ≤ col) (hcW : col < W) (hc0' : 0 ≤ col') (hcW' : col' < W)
    (h : row * W + col = row' * W + col') : row = row' ∧ col = col' := by
  have e1 : (row * W + col) % W = col := by
    rw [add_comm, mul_comm, Int.add_mul_emod_self_left, Int.emod_eq_of_lt hc0 hcW]
  have e2 : (row' * W + col') % W = col' := by
    rw [add_comm, mul_comm, Int.add_mul_emod_self_left, Int.emod_eq_of_lt hc0' hcW']
  have hcol : col = col' := by rw [← e1, ← e2, h]
  refine ⟨?_, hcol⟩
  have hrow : row * W = row' * W := by omega
  exact mul_right_cancel₀ (ne_of_gt hW) hrow

theorem mem_intRange {lo hi k : ℤ} (h1 : lo ≤ k) (h2 : k ≤ hi) :
    k ∈ intRange lo hi := by
  simp only [intRange, List.mem_map, List.mem_range]
  exact ⟨(k - lo).toNat, by omega, by omega⟩

theorem distSq_comm (p q : Pt) : distSq p q = distSq q p := by
  rw [distSq, distSq]; ring

theorem distSq_lt_of_same_cell {c : PCtx} (hg : GoodCtx c) {p q : Pt}
    (hx : ⌊p.x / c.cellSize⌋ = ⌊q.x / c.cellSize⌋)
    (hy : ⌊p.y / c.cellSize⌋ = ⌊q.y / c.cellSize⌋) :
    distSq p q < c.radius * c.radius := by
  have h1 := abs_lt.mp (abs_sub_lt_of_floor_div_eq hg.cspos hx)
  have h2 := abs_lt.mp (abs_sub_lt_of_floor_div_eq hg.cspos hy)
  have hcs := hg.cs2
  rw [distSq]
  nlinarith [hg.cspos]

/-- Soundness of the `isValid` check under the invariant: a candidate that
passes is in bounds and at squared distance at least `radius²` from every
accepted point (the 5×5 clamped scan cannot miss one, because a violating
point would be at most two cells away in each axis and registered in the
grid). -/
theorem isValid_sound {c : PCtx} {s : PState} {x y : ℚ} (hg : GoodCtx c)
    (hinv : Inv c s) (hv : isValid c s x y = true) :
    (0 ≤ x ∧ x < c.width ∧ 0 ≤ y ∧ y < c.height) ∧
    ∀ (i : ℕ) (hi : i < s.points.length),
      c.radius * c.radius ≤ distSq s.points[i] ⟨x, y⟩ := by
  simp only [isValid] at hv
  by_cases hb : x < 0 ∨ c.width ≤ x ∨ y < 0 ∨ c.height ≤ y
  · rw [if_pos hb] at hv
    exact absurd hv (by simp)
  · rw [if_neg hb] at hv
    push_neg at hb
    obtain ⟨hx0, hxw, hy0, hyh⟩ := hb
    refine ⟨⟨hx0, hxw, hy0, hyh⟩, ?_⟩
    intro i hi
    by_contra hlt
    push_neg at hlt
    have hpb := hinv.bounds (s.points[i]) (List.getElem_mem hi)
    obtain ⟨hpx0, hpxw, hpy0, hpyh⟩ := hpb
    have hdsq : distSq s.points[i] ⟨x, y⟩ =
        (s.points[i].x - x) * (s.points[i].x - x) +
        (s.points[i].y - y) * (s.points[i].y - y) := rfl
    have hsqx : (s.points[i].x - x) * (s.points[i].x - x) <
        (2 * c.cellSize) * (2 * c.cellSize) := by
      nlinarith [hlt, hg.rpos, hg.r2cs, sq_nonneg (s.points[i].y - y), hdsq]
    have hsqy : (s.points[i].y - y) * (s.points[i].y - y) <
        (2 * c.cellSize) * (2 * c.cellSize) := by
      nlinarith [hlt, hg.rpos, hg.r2cs, sq_nonneg (s.points[i].x - x), hdsq]
    have habsx : |s.points[i].x - x| < 2 * c.cellSize := by
      rw [abs_lt]
      constructor <;> nlinarith [hg.cspos]
    have habsy : |s.points[i].y - y| < 2 * c.cellSize := by
      rw [abs_lt]
      constructor <;> nlinarith [hg.cspos]
    have hcolc := floor_div_close hg.cspos habsx
    have hrowc := floor_div_close hg.cspos habsy
    have hcolb := floor_div_bounds hg.cspos hpx0 hpxw
    have hrowb := floor_div_bounds hg.cspos hpy0 hpyh
    have hgw : gridWidth c = ⌈c.width / c.cellSize⌉ := rfl
    have hgh : gridHeight c = ⌈c.height / c.cellSize⌉ := rfl
    rw [List.all_eq_true] at hv
    have hrow := hv (⌊s.points[i].y / c.cellSize⌋)
      (mem_intRange (by omega) (by rw [hgh]; omega))
    rw [List.all_eq_true] at hrow
    have hcell := hrow (⌊s.points[i].x / c.cellSize⌋)
      (mem_intRange (by omega) (by rw [hgw]; omega))
    have hgb : s.grid (⌊s.points[i].y / c.cellSize⌋ * gridWidth c +
        ⌊s.points[i].x / c.cellSize⌋) = (i : ℤ) := hinv.gridBack i hi
    rw [hgb] at hcell
    have hne : ¬ ((i : ℤ) = -1) := by omega
    rw [if_neg hne] at hcell
    have htn : ((i : ℤ)).toNat = i := Int.toNat_natCast i
    rw [htn, List.getElem?_eq_getElem hi] at hcell
    have := of_decide_eq_true hcell
    rw [hdsq] at hlt
    linarith

/-! ### Invariant preservation -/

theorem addPoint_inv {c : PCtx} {s : PState} {x y : ℚ} (hg : GoodCtx c)
    (hinv : Inv c s) (hv : isValid c s x y = true) : Inv c (addPoint c s x y) := by
  obtain ⟨⟨hx0, hxw, hy0, hyh⟩, hfar⟩ := isValid_sound hg hinv hv
  have hgwpos : 0 < gridWidth c := Int.ceil_pos.mpr (div_pos hg.wpos hg.cspos)
  have hgw : gridWidth c = ⌈c.width / c.cellSize⌉ := rfl
  have hgi : ∀ a b : ℚ, gridIndex c a b = ⌊b / c.cellSize⌋ * gridWidth c + ⌊a / c.cellSize⌋ :=
    fun _ _ => rfl
  have hpts : (addPoint c s x y).points = s.points ++ [⟨x, y⟩] := rfl
  have hgridU : ∀ j : ℤ, (addPoint c s x y).grid j =
      if j = gridIndex c x y then (s.points.length : ℤ) else s.grid j := fun _ => rfl
  have hlen : (addPoint c s x y).points.length = s.points.length + 1 := by
    rw [hpts]
    simp
  have hcellne : ∀ (i : ℕ) (hi : i < s.points.length),
      gridIndex c (s.points[i].x) (s.points[i].y) ≠ gridIndex c x y := by
    intro i hi heq
    have hpb := hinv.bounds (s.points[i]) (List.getElem_mem hi)
    have hcb := floor_div_bounds hg.cspos hpb.1 hpb.2.1
    have hcb' := floor_div_bounds hg.cspos hx0 hxw
    rw [hgi, hgi] at heq
    rw [← hgw] at hcb hcb'
    have hinj := rowcol_inj hgwpos hcb.1 hcb.2 hcb'.1 hcb'.2 heq
    have hd := distSq_lt_of_same_cell hg (q := ⟨x, y⟩) hinj.2 hinj.1
    have := hfar i hi
    linarith
  constructor
  · intro p hp
    rw [hpts] at hp
    rcases List.mem_append.mp hp with hold | hnew
    · exact hinv.bounds p hold
    · rw [List.mem_singleton] at hnew
      subst hnew
      exact ⟨hx0, hxw, hy0, hyh⟩
  · intro i hi
    rw [hgridU]
    rcases Nat.lt_or_ge i s.points.length with hlt | hge
    · have hget : (addPoint c s x y).points[i] = s.points[i] := by
        simp only [hpts]
        exact List.getElem_append_left hlt
      rw [hget, if_neg (hcellne i hlt)]
      exact hinv.gridBack i hlt
    · have hieq : i = s.points.length := by
        rw [hlen] at hi
        omega
      have hget : (addPoint c s x y).points[i] = ⟨x, y⟩ := by
        simp only [hpts]
        simp [hieq]
      rw [hget, if_pos rfl, hieq]
  · intro j
    rw [hgridU]
    by_cases hj : j = gridIndex c x y
    · right
      refine ⟨s.points.length, by omega, by rw [if_pos hj], ?_⟩
      have hget : (addPoint c s x y).points[s.points.length] = ⟨x, y⟩ := by
        simp only [hpts]
        simp
      rw [hget, hj]
    · rw [if_neg hj]
      rcases hinv.gridDom j with hempty | ⟨i, hi, h1, h2⟩
      · exact Or.inl hempty
      · right
        refine ⟨i, by omega, h1, ?_⟩
        have hget : (addPoint c s x y).points[i] = s.points[i] := by
          simp only [hpts]
          exact List.getElem_append_left hi
        rw [hget]
        exact h2
  · intro i j hi hj hij
    rw [hlen] at hi hj
    have hget : ∀ (k : ℕ) (hk : k < s.points.length),
        (addPoint c s x y).points[k] = s.points[k] := by
      intro k hk
      simp only [hpts]
      exact List.getElem_append_left hk
    have hgetL : (addPoint c s x y).points[s.points.length] = ⟨x, y⟩ := by
      simp only [hpts]
      simp
    rcases Nat.lt_or_ge i s.points.length with hilt | hige
    · rcases Nat.lt_or_ge j s.points.length with hjlt | hjge
      · rw [hget i hilt, hget j hjlt]
        exact hinv.pairwise i j hilt hjlt hij
      · have hjeq : j = s.points.length := by omega
        subst hjeq
        rw [hget i hilt, hgetL]
        exact hfar i hilt
    · have hieq : i = s.points.length := by omega
      subst hieq
      have hjlt : j < s.points.length := by omega
      rw [hget j hjlt, hgetL, distSq_comm]
      exact hfar j hjlt

theorem step_eq (c : PCtx) (o : IterOracle) (s : PState) :
    (∃ q : Pt, isValid c s q.x q.y = true ∧ step c o s = addPoint c s q.x q.y) ∨
      step c o s =
        { s with active := s.active.eraseIdx ((⌊o.pick * (s.active.length : ℚ)⌋).toNat) } := by
  simp only [step]
  split
  · rename_i q hq
    left
    exact ⟨q, by simpa using List.find?_some hq, rfl⟩
  · right
    rfl

theorem step_inv {c : PCtx} {s : PState} (hg : GoodCtx c) (hinv : Inv c s)
    (o : IterOracle) : Inv c (step c o s) := by
  rcases step_eq c o s with ⟨q, hq, heq⟩ | heq
  · rw [heq]
    exact addPoint_inv hg hinv hq
  · rw [heq]
    exact ⟨hinv.bounds, hinv.gridBack, hinv.gridDom, hinv.pairwise⟩

theorem initState_inv {c : PCtx} {O : POracle} (hg : GoodCtx c)
    (hx0 : 0 ≤ O.u0x) (hx1 : O.u0x < 1) (hy0 : 0 ≤ O.u0y) (hy1 : O.u0y < 1) :
    Inv c (initState c O) := by
  have hpb : 0 ≤ O.u0x * c.width ∧ O.u0x * c.width < c.width ∧
      0 ≤ O.u0y * c.height ∧ O.u0y * c.height < c.height :=
    ⟨mul_nonneg hx0 hg.wpos.le, mul_lt_of_lt_one_left hg.wpos hx1,
     mul_nonneg hy0 hg.hpos.le, mul_lt_of_lt_one_left hg.hpos hy1⟩
  have hpts : (initState c O).points = [⟨O.u0x * c.width, O.u0y * c.height⟩] := rfl
  constructor
  · intro p hp
    rw [hpts, List.mem_singleton] at hp
    subst hp
    exact hpb
  · intro i hi
    have hi0 : i = 0 := by
      rw [hpts] at hi
      simp at hi
      omega
    subst hi0
    have hget : (initState c O).points[0] = ⟨O.u0x * c.width, O.u0y * c.height⟩ := rfl
    rw [hget]
    show (if gridIndex c (O.u0x * c.width) (O.u0y * c.height) =
        gridIndex c (O.u0x * c.width) (O.u0y * c.height) then ((0 : ℕ) : ℤ) else -1) =
        ((0 : ℕ) : ℤ)
    rw [if_pos rfl]
  · intro j
    by_cases hj : j = gridIndex c (O.u0x * c.width) (O.u0y * c.height)
    · right
      refine ⟨0, by rw [hpts]; simp, ?_, ?_⟩
      · show (if j = gridIndex c (O.u0x * c.width) (O.u0y * c.height) then ((0 : ℕ) : ℤ)
            else -1) = ((0 : ℕ) : ℤ)
        rw [if_pos hj]
      · rw [hj]
        rfl
    · left
      show (if j = gridIndex c (O.u0x * c.width) (O.u0y * c.height) then ((0 : ℕ) : ℤ)
          else -1) = -1
      rw [if_neg hj]
  · intro i j hi hj hij
    rw [hpts] at hi hj
    simp at hi hj
    omega

theorem runP_some_inv {c : PCtx} {O : POracle} (hg : GoodCtx c) :
    ∀ (fuel n : ℕ) (s s' : PState), Inv c s → runP c O fuel n s = some s' → Inv c s'
  | 0, n, s, s' => by
    intro hinv h
    rw [runP] at h
    split at h
    · cases h
      exact hinv
    · cases h
  | fuel + 1, n, s, s' => by
    intro hinv h
    rw [runP] at h
    split at h
    · cases h
      exact hinv
    · exact runP_some_inv hg fuel (n + 1) _ s' (step_inv hg hinv _) h

/-- C1: for every terminating run of `poissonDisc` on a valid context
(width, height, radius positive, `cellSize = radius/√2` as constrained in
`GoodCtx`, at least one attempt) with PRNG start draws in `[0,1)`, every
pair of points at distinct positions of the returned array is at Euclidean
distance at least `radius`. -/
theorem poissonDisc_min_distance (c : PCtx) (O : POracle) (fuel : ℕ) (pts : List Pt)
    (hg : GoodCtx c) (hx0 : 0 ≤ O.u0x) (hx1 : O.u0x < 1)
    (hy0 : 0 ≤ O.u0y) (hy1 : O.u0y < 1)
    (hrun : poissonDisc c O fuel = some pts) :
    ∀ (i j : ℕ) (hi : i < pts.length) (hj : j < pts.length), i ≠ j →
      (c.radius : ℝ) ≤
        Real.sqrt ((((pts[i].x - pts[j].x) ^ 2 + (pts[i].y - pts[j].y) ^ 2 : ℚ) : ℝ)) := by
  rw [poissonDisc] at hrun
  obtain ⟨s', hs', hpts⟩ := Option.map_eq_some'.mp hrun
  have hinv := runP_some_inv hg fuel 0 _ s' (initState_inv hg hx0 hx1 hy0 hy1) hs'
  subst hpts
  intro i j hi hj hij
  have hq := hinv.pairwise i j hi hj hij
  have hq2 : (c.radius : ℚ) ^ 2 ≤
      (s'.points[i].x - s'.points[j].x) ^ 2 + (s'.points[i].y - s'.points[j].y) ^ 2 := by
    have hd : distSq (s'.points[i]) (s'.points[j]) =
        (s'.points[i].x - s'.points[j].x) ^ 2 + (s'.points[i].y - s'.points[j].y) ^ 2 := by
      rw [distSq]
      ring
    rw [hd] at hq
    nlinarith [hq]
  have hr0 : (0 : ℝ) ≤ ((c.radius : ℚ) : ℝ) := by
    exact_mod_cast hg.rpos.le
  calc ((c.radius : ℚ) : ℝ) = Real.sqrt (((c.radius : ℚ) : ℝ) ^ 2) :=
        (Real.sqrt_sq hr0).symm
    _ ≤ Real.sqrt ((((s'.points[i].x - s'.points[j].x) ^ 2 +
          (s'.points[i].y - s'.points[j].y) ^ 2 : ℚ) : ℝ)) := by
        apply Real.sqrt_le_sqrt
        push_cast
        exact_mod_cast hq2

/-- Witness for C1: the concrete run returns two points at distance 2 ≥
radius 1; all hypotheses are discharged by evaluation. -/
theorem poissonDisc_min_distance_witness :
    (ctxW.radius : ℝ) ≤
      Real.sqrt ((((ptsW[0].x - ptsW[1].x) ^ 2 + (ptsW[0].y - ptsW[1].y) ^ 2 : ℚ) : ℝ)) :=
  poissonDisc_min_distance ctxW OW 5 ptsW
    ⟨by with_unfolding_all decide, by with_unfolding_all decide, by with_unfolding_all decide,
     by with_unfolding_all decide, by with_unfolding_all decide, by with_unfolding_all decide,
     by decide⟩
    (by with_unfolding_all decide) (by with_unfolding_all decide)
    (by with_unfolding_all decide) (by with_unfolding_all decide)
    (by with_unfolding_all decide) 0 1 (by decide) (by decide) (by decide)

theorem points_le_capacity {c : PCtx} {s : PState} (hg : GoodCtx c) (hinv : Inv c s) :
    s.points.length ≤ capacity c := by
  have hgw : 0 < gridWidth c := Int.ceil_pos.mpr (div_pos hg.wpos hg.cspos)
  have hgww : gridWidth c = ⌈c.width / c.cellSize⌉ := rfl
  have hghh : gridHeight c = ⌈c.height / c.cellSize⌉ := rfl
  have hbound : ∀ (i : ℕ) (hi : i < s.points.length),
      0 ≤ gridIndex c (s.points[i].x) (s.points[i].y) ∧
      gridIndex c (s.points[i].x) (s.points[i].y) < gridWidth c * gridHeight c := by
    intro i hi
    have hpb := hinv.bounds (s.points[i]) (List.getElem_mem hi)
    have hcb := floor_div_bounds hg.cspos hpb.1 hpb.2.1
    have hrb := floor_div_bounds hg.cspos hpb.2.2.1 hpb.2.2.2
    rw [← hgww] at hcb
    rw [← hghh] at hrb
    have hgi : gridIndex c (s.points[i].x) (s.points[i].y) =
        ⌊s.points[i].y / c.cellSize⌋ * gridWidth c + ⌊s.points[i].x / c.cellSize⌋ := rfl
    rw [hgi]
    constructor
    · have := mul_nonneg hrb.1 hgw.le
      omega
    · have hrow : ⌊s.points[i].y / c.cellSize⌋ ≤ gridHeight c - 1 := by omega
      have h1 : ⌊s.points[i].y / c.cellSize⌋ * gridWidth c ≤
          (gridHeight c - 1) * gridWidth c := mul_le_mul_of_nonneg_right hrow hgw.le
      nlinarith [hcb.2]
  let f : Fin s.points.length → Fin (capacity c) := fun i =>
    ⟨(gridIndex c (s.points[(i : ℕ)].x) (s.points[(i : ℕ)].y)).toNat, by
      have h := hbound (i : ℕ) i.isLt
      have : capacity c = (gridWidth c * gridHeight c).toNat := rfl
      omega⟩
  have hfinj : Function.Injective f := by
    intro a b hab
    have ha := hbound (a : ℕ) a.isLt
    have hb := hbound (b : ℕ) b.isLt
    have hval : (gridIndex c (s.points[(a : ℕ)].x) (s.points[(a : ℕ)].y)).toNat =
        (gridIndex c (s.points[(b : ℕ)].x) (s.points[(b : ℕ)].y)).toNat :=
      congrArg Fin.val hab
    have hidx : gridIndex c (s.points[(a : ℕ)].x) (s.points[(a : ℕ)].y) =
        gridIndex c (s.points[(b : ℕ)].x) (s.points[(b : ℕ)].y) := by omega
    have h1 := hinv.gridBack (a : ℕ) a.isLt
    have h2 := hinv.gridBack (b : ℕ) b.isLt
    rw [hidx] at h1
    rw [h1] at h2
    have : (a : ℕ) = (b : ℕ) := by exact_mod_cast h2
    exact Fin.ext this
  calc s.points.length = Fintype.card (Fin s.points.length) := (Fintype.card_fin _).symm
    _ ≤ Fintype.card (Fin (capacity c)) := Fintype.card_le_of_injective f hfinj
    _ = capacity c := Fintype.card_fin _

theorem step_measure {c : PCtx} {s : PState} (hg : GoodCtx c) (hinv : Inv c s)
    (o : IterOracle) (_hp0 : 0 ≤ o.pick) (hp1 : o.pick < 1) (hne : s.active ≠ []) :
    pMeasure c (step c o s) < pMeasure c s := by
  have hlen : 0 < s.active.length := List.length_pos.mpr hne
  have hidx : (⌊o.pick * (s.active.length : ℚ)⌋).toNat < s.active.length := by
    have hlenQ : (0 : ℚ) < (s.active.length : ℚ) := by exact_mod_cast hlen
    have h1 : o.pick * (s.active.length : ℚ) < (s.active.length : ℚ) := by nlinarith
    have h2 : ⌊o.pick * (s.active.length : ℚ)⌋ < (s.active.length : ℤ) :=
      Int.floor_lt.mpr (by exact_mod_cast h1)
    omega
  have hcap := points_le_capacity hg hinv
  rcases step_eq c o s with ⟨q, hq, heq⟩ | heq
  · have hinv' : Inv c (step c o s) := step_inv hg hinv o
    have hcap' := points_le_capacity hg hinv'
    rw [heq] at hcap' ⊢
    have hplen : (addPoint c s q.x q.y).points.length = s.points.length + 1 := by
      simp [addPoint]
    have halen : (addPoint c s q.x q.y).active.length = s.active.length + 1 := by
      simp [addPoint]
    rw [pMeasure, pMeasure, hplen, halen]
    rw [hplen] at hcap'
    omega
  · rw [heq, pMeasure, pMeasure]
    have herase : (s.active.eraseIdx ((⌊o.pick * (s.active.length : ℚ)⌋).toNat)).length =
        s.active.length - 1 := by
      rw [List.length_eraseIdx]
      rw [if_pos hidx]
    show 2 * (capacity c - s.points.length) +
        (s.active.eraseIdx ((⌊o.pick * (s.active.length : ℚ)⌋).toNat)).length <
      2 * (capacity c - s.points.length) + s.active.length
    rw [herase]
    omega

theorem runP_terminates {c : PCtx} {O : POracle} (hg : GoodCtx c)
    (hpick : ∀ n, 0 ≤ (O.iter n).pick ∧ (O.iter n).pick < 1) :
    ∀ (fuel n : ℕ) (s : PState), Inv c s → pMeasure c s ≤ fuel →
      ∃ s', runP c O fuel n s = some s' ∧ Inv c s'
  | 0, n, s => by
    intro hinv hm
    rw [runP]
    have hact : s.active = [] := by
      rw [pMeasure] at hm
      have : s.active.length = 0 := by omega
      exact List.length_eq_zero.mp this
    rw [if_pos hact]
    exact ⟨s, rfl, hinv⟩
  | fuel + 1, n, s => by
    intro hinv hm
    rw [runP]
    by_cases hact : s.active = []
    · rw [if_pos hact]
      exact ⟨s, rfl, hinv⟩
    · rw [if_neg hact]
      have hmeas := step_measure hg hinv (O.iter n) (hpick n).1 (hpick n).2 hact
      exact runP_terminates hg hpick fuel (n + 1) _ (step_inv hg hinv (O.iter n))
        (by omega)

/-- C6: on a valid context with PRNG draws in `[0,1)`, the main loop
terminates within `2 · capacity` iterations — each iteration either accepts
a point (possible at most `capacity` times, by the one-point-per-grid-cell
packing bound) or removes one active index — and the run ends with the
active list empty, returning at most `capacity` points. -/
theorem poissonDisc_terminates (c : PCtx) (O : POracle) (hg : GoodCtx c)
    (hpick : ∀ n, 0 ≤ (O.iter n).pick ∧ (O.iter n).pick < 1)
    (hx0 : 0 ≤ O.u0x) (hx1 : O.u0x < 1) (hy0 : 0 ≤ O.u0y) (hy1 : O.u0y < 1) :
    ∃ pts : List Pt, poissonDisc c O (2 * capacity c) = some pts ∧
      pts.length ≤ capacity c := by
  have hinv0 := initState_inv hg hx0 hx1 hy0 hy1
  have hplen : (initState c O).points.length = 1 := rfl
  have hcap1 : 1 ≤ capacity c := by
    have := points_le_capacity hg hinv0
    omega
  have halen : (initState c O).active.length = 1 := rfl
  have hm : pMeasure c (initState c O) ≤ 2 * capacity c := by
    rw [pMeasure, hplen, halen]
    omega
  obtain ⟨s', hs', hinv'⟩ := runP_terminates hg hpick (2 * capacity c) 0 _ hinv0 hm
  refine ⟨s'.points, ?_, points_le_capacity hg hinv'⟩
  rw [poissonDisc, hs']
  rfl

/-- Witness for C6: the concrete valid context and oracle of the C1 witness
satisfy every hypothesis, so the bounded-fuel run completes. -/
theorem poissonDisc_terminates_witness :
    ∃ pts : List Pt, poissonDisc ctxW OW (2 * capacity ctxW) = some pts ∧
      pts.length ≤ capacity ctxW :=
  poissonDisc_terminates ctxW OW
    ⟨by with_unfolding_all decide, by with_unfolding_all decide, by with_unfolding_all decide,
     by with_unfolding_all decide, by with_unfolding_all decide, by with_unfolding_all decide,
     by decide⟩
    (fun _ => ⟨le_refl (0 : ℚ), show (0 : ℚ) < 1 by norm_num⟩)
    (by with_unfolding_all decide) (by with_unfolding_all decide)
    (by with_unfolding_all decide) (by with_unfolding_all decide)

/-- Counterexample for C2: with non-positive radius `poissonDisc` does not
fail fast with an invalid-argument error before sampling begins — it seeds
and samples: with out-of-bounds candidates it returns normally with the
accepted seed point, and with in-bounds candidates it is still accepting
after 20 iterations (heading for an infinite loop) rather than erroring. -/
theorem poissonDisc_no_failfast_counterexample :
    ctxNeg.radius ≤ 0 ∧ poissonDisc ctxNeg ONeg 2 = some [⟨0, 0⟩] ∧
      poissonDisc ctxNeg ONeg2 20 = none := by
  refine ⟨?_, ?_, ?_⟩
  · with_unfolding_all decide
  · with_unfolding_all decide
  · with_unfolding_all decide

/-- C2 (amended): `poissonDisc` performs no argument validation.  With a
negative `cellSize` (as produced by any negative radius) the neighbor scan
range is empty and `isValid` reduces to the plain bounds check — the
minimum-distance logic is silently disabled and sampling proceeds without
any invalid-argument error. -/
theorem isValid_no_guard_of_neg_cellSize (c : PCtx) (s : PState) (x y : ℚ)
    (hh : 0 ≤ c.height) (hcs : c.cellSize < 0) :
    isValid c s x y = decide (0 ≤ x ∧ x < c.width ∧ 0 ≤ y ∧ y < c.height) := by
  have hgh : gridHeight c ≤ 0 := by
    have h1 : c.height / c.cellSize ≤ 0 := div_nonpos_of_nonneg_of_nonpos hh hcs.le
    have h2 : gridHeight c = ⌈c.height / c.cellSize⌉ := rfl
    rw [h2]
    exact Int.ceil_le.mpr (by exact_mod_cast h1)
  simp only [isValid]
  by_cases hb : x < 0 ∨ c.width ≤ x ∨ y < 0 ∨ c.height ≤ y
  · rw [if_pos hb]
    have hnot : ¬ (0 ≤ x ∧ x < c.width ∧ 0 ≤ y ∧ y < c.height) := by
      rintro ⟨h1, h2, h3, h4⟩
      rcases hb with h | h | h | h <;> linarith
    simp [hnot]
  · rw [if_neg hb]
    push_neg at hb
    have hempty : intRange (max 0 (⌊y / c.cellSize⌋ - 2))
        (min (gridHeight c - 1) (⌊y / c.cellSize⌋ + 2)) = [] := by
      rw [intRange]
      have hto : (min (gridHeight c - 1) (⌊y / c.cellSize⌋ + 2) + 1 -
          max 0 (⌊y / c.cellSize⌋ - 2)).toNat = 0 := by omega
      rw [hto]
      rfl
    rw [hempty]
    simp [hb.1, hb.2.1, hb.2.2.1, hb.2.2.2]

/-- Witness for the amended C2 at the concrete degenerate context: the
validity check of a mid-rectangle candidate is exactly the bounds check. -/
theorem isValid_no_guard_witness :
    isValid ctxNeg (initState ctxNeg ONeg) (1/2) (1/2) =
      decide ((0 : ℚ) ≤ 1/2 ∧ (1/2 : ℚ) < ctxNeg.width ∧ (0 : ℚ) ≤ 1/2 ∧
        (1/2 : ℚ) < ctxNeg.height) :=
  isValid_no_guard_of_neg_cellSize ctxNeg (initState ctxNeg ONeg) (1/2) (1/2)
    (by with_unfolding_all decide) (by with_unfolding_all decide)

end GenUtils
